import Mathlib

/-!
Verification development for the path-addressing model and the reduce
(event-aggregation) engine of the repository.

The structured value tree mirrors the `Value` enum (scalar variants, map
with sorted unique string keys as in `BTreeMap`, and sequence).  The reduce
state machine mirrors `src/transforms/reduce/mod.rs`.  Components whose
implementation is not part of the excerpt (the lookup parser, the merge
strategy module, the discriminant) are modelled from the specification, as
indicated on each definition.
-/

set_option maxHeartbeats 2000000

mutual

/-- Structured value tree: scalar variants, ordered-key map, sequence.
Mirrors the event `Value` enum; maps are kept sorted by key with unique
keys, matching `BTreeMap` iteration order. -/
inductive Value where
  | null
  | bytes (s : String)
  | integer (i : Int)
  | boolean (b : Bool)
  | timestamp (t : Nat)
  | array (l : VList)
  | map (m : VMap)
  deriving DecidableEq, Repr

/-- A sequence of values (children of a `Value.array` node). -/
inductive VList where
  | nil
  | cons (v : Value) (rest : VList)
  deriving DecidableEq, Repr

/-- Entries of a `Value.map` node, kept sorted by key, keys unique. -/
inductive VMap where
  | nil
  | cons (k : String) (v : Value) (rest : VMap)
  deriving DecidableEq, Repr

end

/-- Length of a value sequence. -/
def VList.length : VList → Nat
  | .nil => 0
  | .cons _ rest => 1 + rest.length

/-- Indexing into a value sequence. -/
def VList.get? : Nat → VList → Option Value
  | _, .nil => none
  | 0, .cons v _ => some v
  | n + 1, .cons _ rest => VList.get? n rest

/-- Replace the element at an index (identity when out of range). -/
def VList.set : Nat → Value → VList → VList
  | _, _, .nil => .nil
  | 0, nv, .cons _ rest => .cons nv rest
  | n + 1, nv, .cons v rest => .cons v (VList.set n nv rest)

/-- Append one element at the tail of a sequence. -/
def VList.snoc : VList → Value → VList
  | .nil, nv => .cons nv .nil
  | .cons v rest, nv => .cons v (rest.snoc nv)

/-- Concatenate two sequences. -/
def VList.appendL : VList → VList → VList
  | .nil, ys => ys
  | .cons v rest, ys => .cons v (rest.appendL ys)

/-- Build a sequence from a list, keeping order. -/
def VList.ofList : List Value → VList
  | [] => .nil
  | v :: rest => .cons v (VList.ofList rest)

/-- Strict order on characters by code point. -/
def charLt (a b : Char) : Bool := a.toNat < b.toNat

/-- Lexicographic strict order on character lists. -/
def chListLt : List Char → List Char → Bool
  | [], [] => false
  | [], _ :: _ => true
  | _ :: _, [] => false
  | a :: as, b :: bs => charLt a b || (a = b && chListLt as bs)

/-- Strict order on strings, matching the byte-wise key order of the
`BTreeMap` (code-point order equals byte order under UTF-8). -/
def strLt (a b : String) : Bool := chListLt a.data b.data

/-- Key lookup in a map node. -/
def VMap.lookup (k : String) : VMap → Option Value
  | .nil => none
  | .cons k2 v rest => if k = k2 then some v else rest.lookup k

/-- Sorted insert-or-replace, maintaining the key order and uniqueness
invariant of `BTreeMap`. -/
def VMap.insert (k : String) (nv : Value) : VMap → VMap
  | .nil => .cons k nv .nil
  | .cons k2 v rest =>
    if k = k2 then .cons k nv rest
    else if strLt k k2 then .cons k nv (.cons k2 v rest)
    else .cons k2 v (rest.insert k nv)

/-- Map entries in iteration (key-sorted) order. -/
def VMap.toList : VMap → List (String × Value)
  | .nil => []
  | .cons k v rest => (k, v) :: rest.toList

/-- Build a map node from an already key-sorted entry list. -/
def VMap.ofList : List (String × Value) → VMap
  | [] => .nil
  | (k, v) :: rest => .cons k v (VMap.ofList rest)

/-- A single path addressing step: a field name or a sequence index.
Mirrors `Segment` of the lookup model. -/
inductive Segment where
  | field (s : String)
  | index (n : Nat)
  deriving DecidableEq, Repr

/-- An owned path: an ordered sequence of segments (`LookupBuf`). -/
abbrev LookupBuf := List Segment

/-- The raw, unparsed constructor: the whole string becomes one opaque
field segment (`LookupBuf::from`). -/
def LookupBuf.fromRaw (s : String) : LookupBuf := [Segment.field s]

/-- A character a bare (unquoted) field may contain: anything except the
separator, the index opener and the double quote. -/
def isBareChar (c : Char) : Bool := !(c = '.' || c = '[' || c = '"')

/-- Modelled from the spec: field parsing of the lookup grammar (the
lookup parser implementation is not part of the excerpt, only its tests).
A quoted field keeps its quotes in the segment name; a bare field is a
nonempty run of bare characters. -/
def parseField (cs : List Char) : Option (List Char × List Char) :=
  match cs with
  | [] => none
  | c :: rest =>
    if c = '"' then
      let inner := rest.takeWhile (fun c2 => !(c2 = '"'))
      match rest.dropWhile (fun c2 => !(c2 = '"')) with
      | [] => none
      | c2 :: rest2 =>
        if c2 = '"' then some ('"' :: (inner ++ ['"']), rest2) else none
    else
      let bare := cs.takeWhile isBareChar
      if bare.isEmpty then none
      else some (bare, cs.dropWhile isBareChar)

/-- Numeric value of one decimal digit character. -/
def digitVal (c : Char) : Nat := c.toNat - 48

/-- Numeric value of a run of decimal digit characters. -/
def digitsVal (ds : List Char) : Nat := ds.foldl (fun a c => 10 * a + digitVal c) 0

/-- Modelled from the spec: zero or more bracketed index components
following a field. -/
def parseIndices (fuel : Nat) (cs : List Char) : Option (List Nat × List Char) :=
  match fuel with
  | 0 => none
  | fuel + 1 =>
    match cs with
    | [] => some ([], cs)
    | c :: rest =>
      if c = '[' then
        let ds := rest.takeWhile Char.isDigit
        if ds.isEmpty then none
        else
          match rest.dropWhile Char.isDigit with
          | [] => none
          | c2 :: rest2 =>
            if c2 = ']' then
              match parseIndices fuel rest2 with
              | some (is, rest3) => some (digitsVal ds :: is, rest3)
              | none => none
            else none
      else some ([], cs)

/-- Modelled from the spec: the path grammar
`path := segment (. segment)*`, `segment := field index*`.  Parsing an
empty string fails; the result is a flat segment sequence. -/
def parsePath (fuel : Nat) (cs : List Char) : Option (List Segment) :=
  match fuel with
  | 0 => none
  | fuel + 1 =>
    match parseField cs with
    | none => none
    | some (f, rest) =>
      match parseIndices (rest.length + 1) rest with
      | none => none
      | some (is, rest2) =>
        let seg := Segment.field (String.mk f) :: is.map Segment.index
        match rest2 with
        | [] => some seg
        | c :: rest3 =>
          if c = '.' then
            match parsePath fuel rest3 with
            | some segs => some (seg ++ segs)
            | none => none
          else none

/-- Parse a path string (`Lookup::from_str`); `none` models the parse
error (in particular `EmptyPath` for the empty string). -/
def parse (s : String) : Option (List Segment) :=
  parsePath (s.data.length + 1) s.data

/-- Decimal digit character for a value below ten. -/
def digitChar (d : Nat) : Char := Char.ofNat (48 + d)

/-- Fuelled big-endian decimal rendering of a natural number. -/
def natDigitsF (fuel : Nat) (n : Nat) : List Char :=
  match fuel with
  | 0 => []
  | fuel + 1 =>
    if n < 10 then [digitChar n]
    else natDigitsF fuel (n / 10) ++ [digitChar (n % 10)]

/-- Decimal rendering of a natural number, most significant digit first. -/
def natDigits (n : Nat) : List Char := natDigitsF (n + 1) n

/-- Canonical rendering of the segments after the first: fields are
preceded by the separator, indices are bracketed with no separator. -/
def renderTail : List Segment → List Char
  | [] => []
  | .field f :: rest => '.' :: (f.data ++ renderTail rest)
  | .index i :: rest => '[' :: (natDigits i ++ ']' :: renderTail rest)

/-- Canonical rendering of a whole path (`to_string`): the leading field
is not preceded by a separator. -/
def renderSegs : List Segment → List Char
  | [] => []
  | .field f :: rest => f.data ++ renderTail rest
  | .index i :: rest => '[' :: (natDigits i ++ ']' :: renderTail rest)

/-- Canonical string rendering of a path. -/
def renderLookup (l : List Segment) : String := String.mk (renderSegs l)

/-- Rendering of a list of index components. -/
def renderIdxs : List Nat → List Char
  | [] => []
  | i :: is => '[' :: (natDigits i ++ ']' :: renderIdxs is)

/-- No index component written with a redundant leading zero: the
character window bracket, zero, digit never occurs. -/
def noLZ : List Char → Bool
  | c1 :: c2 :: c3 :: rest =>
    !(c1 = '[' && c2 = '0' && c3.isDigit) && noLZ (c2 :: c3 :: rest)
  | _ => true

/-- Modelled from the spec: `get(path)` walks the tree one segment at a
time; a field segment requires a map node, an index segment a sequence
node; a miss yields `none`. -/
def valueGet : List Segment → Value → Option Value
  | [], v => some v
  | .field f :: rest, .map m => (m.lookup f).bind (valueGet rest)
  | .index i :: rest, .array a => (VList.get? i a).bind (valueGet rest)
  | _, _ => none

/-- Modelled from the spec: building a fresh subtree for the part of an
insert path below the last existing node; an index other than zero would
be a sparse write and is rejected. -/
def insertNew : List Segment → Value → Except String Value
  | [], nv => .ok nv
  | .field f :: rest, nv =>
    (insertNew rest nv).map (fun c => .map (.cons f c .nil))
  | .index i :: rest, nv =>
    if i = 0 then (insertNew rest nv).map (fun c => .array (.cons c .nil))
    else .error "sparse sequence write"

/-- Modelled from the spec: `insert(path, value)` walks the tree,
creating intermediate nodes as needed; a segment kind conflicting with
the node kind is a type mismatch, out-of-order sparse sequence writes are
rejected, append-only growth is allowed. -/
def valueInsert : List Segment → Value → Value → Except String Value
  | [], nv, _ => .ok nv
  | .field f :: rest, nv, .map m =>
    (match m.lookup f with
     | some child => (valueInsert rest nv child).map (fun c => .map (m.insert f c))
     | none => (insertNew rest nv).map (fun c => .map (m.insert f c)))
  | .field _ :: _, _, _ => .error "type mismatch: expected map node"
  | .index i :: rest, nv, .array a =>
    (match VList.get? i a with
     | some child => (valueInsert rest nv child).map (fun c => .array (VList.set i c a))
     | none =>
       if i = a.length then (insertNew rest nv).map (fun c => .array (a.snoc c))
       else .error "sparse sequence write")
  | .index _ :: _, _, _ => .error "type mismatch: expected sequence node"

/-- A log event: the flat-to-nested field map of a `LogEvent`
(`BTreeMap` of string keys to values). -/
abbrev LogEvent := VMap

/-- Insert a value at a path into an event. -/
def logInsert (k : List Segment) (nv : Value) (e : LogEvent) : Except String LogEvent :=
  match valueInsert k nv (.map e) with
  | .ok (.map m) => .ok m
  | .ok _ => .error "root replaced by a non-map value"
  | .error err => .error err

/-- One rendered path component of the flattening traversal
(`PathComponent` of `all_fields.rs`). -/
inductive PathComponent where
  | key (k : String)
  | index (i : Nat)
  deriving DecidableEq, Repr

/-- One frame of the traversal stack (`LeafIter` of `all_fields.rs`): the
not-yet-visited remainder of a map node, or of a sequence node together
with the next enumeration index. -/
inductive LeafIter where
  | map (m : VMap)
  | arr (i : Nat) (l : VList)
  deriving DecidableEq, Repr

/-- The traversal state of `FieldsIter`: the stack of frames (top first)
and the path components from the root to the frame below the top. -/
structure FieldsIter where
  stack : List LeafIter
  path : List PathComponent
  deriving DecidableEq, Repr

/-- Rendering of a component sequence as in `FieldsIter::make_path`: emit
each component, a key verbatim and an index bracketed, and place the
separator exactly before a following key component. -/
def renderComponents : List PathComponent → List Char
  | [] => []
  | c :: rest =>
    (match c with
     | .key k => k.data
     | .index i => '[' :: (natDigits i ++ [']'])) ++
    (match rest with
     | .key _ :: _ => ['.']
     | _ => []) ++ renderComponents rest

/-- `FieldsIter::make_path`: render the stored path followed by the
component of the value about to be yielded. -/
def make_path (st : FieldsIter) (c : PathComponent) : String :=
  String.mk (renderComponents (st.path ++ [c]))

/-- One `FieldsIter::next` call (fuelled loop): advance the top frame,
pushing a new frame for a composite child, yielding a scalar child with
its rendered path, and popping an exhausted frame. -/
def FieldsIter.next (fuel : Nat) (st : FieldsIter) : Option ((String × Value) × FieldsIter) :=
  match fuel with
  | 0 => none
  | fuel + 1 =>
    match st.stack with
    | [] => none
    | LeafIter.map m :: stackRest =>
      match m with
      | .nil => FieldsIter.next fuel { stack := stackRest, path := st.path.dropLast }
      | .cons k v m2 =>
        let st2 : FieldsIter := { st with stack := LeafIter.map m2 :: stackRest }
        match v with
        | .map mm =>
          FieldsIter.next fuel { stack := LeafIter.map mm :: st2.stack, path := st2.path ++ [.key k] }
        | .array a =>
          FieldsIter.next fuel { stack := LeafIter.arr 0 a :: st2.stack, path := st2.path ++ [.key k] }
        | _ => some ((make_path st2 (.key k), v), st2)
    | LeafIter.arr i l :: stackRest =>
      match l with
      | .nil => FieldsIter.next fuel { stack := stackRest, path := st.path.dropLast }
      | .cons v l2 =>
        let st2 : FieldsIter := { st with stack := LeafIter.arr (i + 1) l2 :: stackRest }
        match v with
        | .map mm =>
          FieldsIter.next fuel { stack := LeafIter.map mm :: st2.stack, path := st2.path ++ [.index i] }
        | .array a =>
          FieldsIter.next fuel { stack := LeafIter.arr 0 a :: st2.stack, path := st2.path ++ [.index i] }
        | _ => some ((make_path st2 (.index i), v), st2)

/-- Collect the whole (finite) traversal into a list. -/
def FieldsIter.toList (fuel : Nat) (st : FieldsIter) : List (String × Value) :=
  match fuel with
  | 0 => []
  | fuel + 1 =>
    match FieldsIter.next (fuel + 1) st with
    | none => []
    | some (pv, st2) => pv :: FieldsIter.toList fuel st2

/-- `all_fields`: the flattening traversal of a field map, started from a
single root frame with an empty path. -/
def all_fields (fuel : Nat) (fields : VMap) : List (String × Value) :=
  FieldsIter.toList fuel { stack := [LeafIter.map fields], path := [] }

/-- A scalar (leaf) value: neither a map nor a sequence node. -/
def Value.isScalar : Value → Bool
  | .map _ => false
  | .array _ => false
  | _ => true

/-- The nested tree of the traversal behavior contract. -/
def exampleTree : VMap :=
  VMap.ofList [("a", Value.map (VMap.ofList
    [("a", Value.integer 4),
     ("array", Value.array (VList.ofList
       [Value.null, Value.integer 3,
        Value.map (VMap.ofList [("x", Value.integer 1)]),
        Value.array (VList.ofList [Value.integer 2])])),
     ("b", Value.map (VMap.ofList [("c", Value.integer 5)]))]))]

example : all_fields 100 exampleTree =
    [("a.a", .integer 4), ("a.array[0]", .null), ("a.array[1]", .integer 3),
     ("a.array[2].x", .integer 1), ("a.array[3][0]", .integer 2),
     ("a.b.c", .integer 5)] := by decide

/-- Association-list lookup keyed by decidable equality (models the hash
map and index map lookups of the reduce engine). -/
def alookup {κ α : Type} [DecidableEq κ] (k : κ) : List (κ × α) → Option α
  | [] => none
  | (k2, v) :: rest => if k = k2 then some v else alookup k rest

/-- Remove the entry of a key (the first occurrence). -/
def aerase {κ α : Type} [DecidableEq κ] (k : κ) : List (κ × α) → List (κ × α)
  | [] => []
  | (k2, v) :: rest => if k = k2 then rest else (k2, v) :: aerase k rest

/-- Insert-or-replace: an existing entry is updated in place, a new key
is appended. -/
def ainsert {κ α : Type} [DecidableEq κ] (k : κ) (nv : α) : List (κ × α) → List (κ × α)
  | [] => [(k, nv)]
  | (k2, v) :: rest => if k = k2 then (k, nv) :: rest else (k2, v) :: ainsert k nv rest

/-- Modelled from the spec: the named merge strategies of the
configuration surface (the merge strategy module is not part of the
excerpt). -/
inductive MergeStrategy where
  | discard
  | concat
  | array
  | max
  deriving DecidableEq, Repr

/-- Modelled from the spec: a per-field merger instance owning one
accumulated value (`ReduceValueMerger`).  The integer accumulators cover
the summation and maximum strategies; the concatenation strategy
distinguishes a string accumulator from a sequence accumulator chosen by
the first value. -/
inductive Merger where
  | discard (v : Value)
  | sumNum (i : Int)
  | concatStr (s : String)
  | concatArr (l : VList)
  | arrayM (l : VList)
  | maxNum (i : Int)
  deriving DecidableEq, Repr

/-- Modelled from the spec: the type-dependent default merger for a field
with no configured strategy: numeric scalars accumulate by summation,
every other value is retained from the first contributing event. -/
def Merger.ofValue : Value → Merger
  | .integer i => .sumNum i
  | v => .discard v

/-- Modelled from the spec: create a merger from the first value of a
field under a named strategy; an incompatible first value is an error and
the merger is not created. -/
def get_value_merger (v : Value) (s : MergeStrategy) : Except String Merger :=
  match s with
  | .discard => .ok (.discard v)
  | .concat =>
    match v with
    | .bytes str => .ok (.concatStr str)
    | .array l => .ok (.concatArr l)
    | _ => .error "expected string or sequence value for concat"
  | .array => .ok (.arrayM (.cons v .nil))
  | .max =>
    match v with
    | .integer i => .ok (.maxNum i)
    | _ => .error "expected numeric value for max"

/-- Modelled from the spec: `combine` of a merger: discard keeps the
first value, summation and maximum require numeric values, string
concatenation joins with a single space and rejects non-strings, sequence
concatenation extends with the elements of a sequence and appends any
other value, array collection appends the raw value. -/
def Merger.add : Merger → Value → Except String Merger
  | .discard v, _ => .ok (.discard v)
  | .sumNum i, .integer j => .ok (.sumNum (i + j))
  | .sumNum _, _ => .error "expected numeric value for sum"
  | .concatStr s, .bytes t => .ok (.concatStr (s ++ " " ++ t))
  | .concatStr _, _ => .error "expected string value for concat"
  | .concatArr l, .array a => .ok (.concatArr (l.appendL a))
  | .concatArr l, v => .ok (.concatArr (l.snoc v))
  | .arrayM l, v => .ok (.arrayM (l.snoc v))
  | .maxNum i, .integer j => .ok (.maxNum (max i j))
  | .maxNum _, _ => .error "expected numeric value for max"

/-- Modelled from the spec: `finalize` of a merger. -/
def Merger.finalize : Merger → Value
  | .discard v => v
  | .sumNum i => .integer i
  | .concatStr s => .bytes s
  | .concatArr l => .array l
  | .arrayM l => .array l
  | .maxNum i => .integer i

/-- `ReduceValueMerger::insert_into`: finalize and write the result into
an output event under the original path. -/
def Merger.insert_into (m : Merger) (k : LookupBuf) (e : LogEvent) : Except String LogEvent :=
  logInsert k m.finalize e

/-- An externally evaluated boundary condition: `check(event) -> bool`. -/
abbrev Cond := LogEvent → Bool

/-- An aggregation bucket (`ReduceState`): one merger per observed field
path, and the instant of the last update. -/
structure ReduceState where
  fields : List (LookupBuf × Merger)
  stale_since : Nat
  deriving DecidableEq, Repr

/-- The key under which a field of the first event is recorded in
`ReduceState::new`: parsed as a path expression, with the opaque raw
segment as the fallback of a parse failure. -/
def seedKey (k : String) : LookupBuf :=
  match parse k with
  | some p => p
  | none => LookupBuf.fromRaw k

/-- One field of the first event in `ReduceState::new`: the strategy is
looked up under the parsed key; a merger creation failure drops the
field, a field with no strategy gets the type-dependent default merger. -/
def seedField (strategies : List (LookupBuf × MergeStrategy))
    (acc : List (LookupBuf × Merger)) (kv : String × Value) : List (LookupBuf × Merger) :=
  let k_lookup := seedKey kv.1
  match alookup k_lookup strategies with
  | some strat =>
    match get_value_merger kv.2 strat with
    | .ok m => ainsert k_lookup m acc
    | .error _ => acc
  | none => ainsert k_lookup (Merger.ofValue kv.2) acc

/-- `ReduceState::new`: open a bucket seeded from the fields of one
event. -/
def ReduceState.new (e : LogEvent) (strategies : List (LookupBuf × MergeStrategy))
    (now : Nat) : ReduceState :=
  { stale_since := now
    fields := e.toList.foldl (seedField strategies) [] }

/-- One field of a subsequent event in `ReduceState::add_event`: the key
is the opaque raw segment; a vacant entry creates a merger (strategy or
default), an occupied entry combines, and a combine failure keeps the
prior accumulated value. -/
def addField (strategies : List (LookupBuf × MergeStrategy))
    (acc : List (LookupBuf × Merger)) (kv : String × Value) : List (LookupBuf × Merger) :=
  let k_lookup := LookupBuf.fromRaw kv.1
  match alookup k_lookup acc with
  | none =>
    match alookup k_lookup strategies with
    | some strat =>
      match get_value_merger kv.2 strat with
      | .ok m => ainsert k_lookup m acc
      | .error _ => acc
    | none => ainsert k_lookup (Merger.ofValue kv.2) acc
  | some m =>
    match m.add kv.2 with
    | .ok m2 => ainsert k_lookup m2 acc
    | .error _ => acc

/-- `ReduceState::add_event`: merge the fields of a subsequent event into
an open bucket and reset the staleness instant. -/
def ReduceState.add_event (st : ReduceState) (e : LogEvent)
    (strategies : List (LookupBuf × MergeStrategy)) (now : Nat) : ReduceState :=
  { stale_since := now
    fields := e.toList.foldl (addField strategies) st.fields }

/-- `ReduceState::flush`: finalize every merger into a fresh output
event; a failing insert is logged and skipped. -/
def ReduceState.flush (st : ReduceState) : LogEvent :=
  st.fields.foldl
    (fun ev km =>
      match km.2.insert_into km.1 ev with
      | .ok ev2 => ev2
      | .error _ => ev) VMap.nil

/-- The grouping key (`Discriminant`): one optional value per configured
group-by path, in order; a missing path is a distinguished absent slot. -/
abbrev Discriminant := List (Option Value)

/-- Modelled from the spec: `Discriminant::from_log_event` evaluates each
group-by path against the event value tree (the discriminant module is
not part of the excerpt). -/
def Discriminant.from_log_event (e : LogEvent) (group_by : List LookupBuf) : Discriminant :=
  group_by.map (fun p => valueGet p (Value.map e))

/-- The reduce transform configuration (`ReduceConfig`); the boundary
conditions are the injected check capabilities. -/
structure ReduceConfig where
  expire_after_ms : Option Nat
  flush_period_ms : Option Nat
  group_by : List LookupBuf
  merge_strategies : List (LookupBuf × MergeStrategy)
  ends_when : Option Cond
  starts_when : Option Cond

/-- The reduce engine state (`Reduce`). -/
structure Reduce where
  expire_after : Nat
  flush_period : Nat
  group_by : List LookupBuf
  merge_strategies : List (LookupBuf × MergeStrategy)
  reduce_merge_states : List (Discriminant × ReduceState)
  ends_when : Option Cond
  starts_when : Option Cond

/-- `Reduce::new`: construction fails when both boundary conditions are
configured; otherwise the engine starts with an empty bucket map and the
defaults of thirty seconds staleness and one second flush period. -/
def Reduce.new (config : ReduceConfig) : Except String Reduce :=
  if config.ends_when.isSome && config.starts_when.isSome then
    .error "only one of ends_when and starts_when can be provided"
  else
    .ok { expire_after := config.expire_after_ms.getD 30000
          flush_period := config.flush_period_ms.getD 1000
          group_by := config.group_by
          merge_strategies := config.merge_strategies
          reduce_merge_states := []
          ends_when := config.ends_when
          starts_when := config.starts_when }

/-- The body of the removal loop of `Reduce::flush_into`: remove the
bucket of one collected discriminant and emit its flushed event. -/
def sweepStep (acc : List (Discriminant × ReduceState) × List LogEvent)
    (k : Discriminant) : List (Discriminant × ReduceState) × List LogEvent :=
  match alookup k acc.1 with
  | some t => (aerase k acc.1, acc.2 ++ [t.flush])
  | none => acc

/-- `Reduce::flush_into`: collect the discriminants of the buckets whose
time since last update reached the staleness threshold, then remove and
flush each. -/
def Reduce.flush_into (r : Reduce) (now : Nat) : Reduce × List LogEvent :=
  let flush_discriminants :=
    (r.reduce_merge_states.filter
      (fun p => r.expire_after ≤ now - p.2.stale_since)).map Prod.fst
  let final := flush_discriminants.foldl sweepStep
    (r.reduce_merge_states, ([] : List LogEvent))
  ({ r with reduce_merge_states := final.1 }, final.2)

/-- `Reduce::flush_all_into`: drain every bucket on upstream
completion. -/
def Reduce.flush_all_into (r : Reduce) : Reduce × List LogEvent :=
  ({ r with reduce_merge_states := [] },
   r.reduce_merge_states.map (fun p => p.2.flush))

/-- `Reduce::push_or_new_reduce_state`: merge the event into the bucket
of its discriminant, opening one from the event alone when absent. -/
def Reduce.push_or_new_reduce_state (r : Reduce) (event : LogEvent)
    (discriminant : Discriminant) (now : Nat) : Reduce :=
  match alookup discriminant r.reduce_merge_states with
  | none =>
    { r with reduce_merge_states :=
        (ainsert discriminant (ReduceState.new event r.merge_strategies now)
          r.reduce_merge_states) }
  | some st =>
    { r with reduce_merge_states :=
        (ainsert discriminant (st.add_event event r.merge_strategies now)
          r.reduce_merge_states) }

/-- `Reduce::transform_one`: evaluate the boundary conditions, apply the
start or end transition (or the plain merge), then run the staleness
sweep; boundary flushes precede staleness flushes in the output. -/
def Reduce.transform_one (r : Reduce) (now : Nat) (event : LogEvent) :
    Reduce × List LogEvent :=
  let starts_here := match r.starts_when with
    | some c => c event
    | none => false
  let ends_here := match r.ends_when with
    | some c => c event
    | none => false
  let discriminant := Discriminant.from_log_event event r.group_by
  let step :=
    if starts_here then
      match alookup discriminant r.reduce_merge_states with
      | some state =>
        (Reduce.push_or_new_reduce_state
          { r with reduce_merge_states := aerase discriminant r.reduce_merge_states }
          event discriminant now,
         [state.flush])
      | none => (r.push_or_new_reduce_state event discriminant now, [])
    else if ends_here then
      match alookup discriminant r.reduce_merge_states with
      | some state =>
        ({ r with reduce_merge_states := aerase discriminant r.reduce_merge_states },
         [(state.add_event event r.merge_strategies now).flush])
      | none => (r, [(ReduceState.new event r.merge_strategies now).flush])
    else (r.push_or_new_reduce_state event discriminant now, [])
  let swept := step.1.flush_into now
  (swept.1, step.2 ++ swept.2)

/-- Feed a finite stream of events through the engine at a fixed instant,
concatenating the emitted output events in order. -/
def runReduce (r : Reduce) (events : List LogEvent) (now : Nat) : Reduce × List LogEvent :=
  events.foldl
    (fun acc e =>
      let step := acc.1.transform_one now e
      (step.1, acc.2 ++ step.2))
    (r, [])

/-- A fallback engine value for total construction helpers. -/
def emptyReduce : Reduce :=
  { expire_after := 0, flush_period := 0, group_by := [], merge_strategies := []
    reduce_merge_states := [], ends_when := none, starts_when := none }

/-- Build an engine from a configuration, with the fallback on a
construction error. -/
def buildReduce (c : ReduceConfig) : Reduce :=
  match Reduce.new c with
  | .ok r => r
  | .error _ => emptyReduce

/-- The boundary condition of the behavior contracts: the field
`test_end` exists on the event. -/
def endsWhenTestEnd : Cond := fun e => (VMap.lookup "test_end" e).isSome

/-- The configuration of the grouping scenario: group by `request_id`,
end a bucket when `test_end` exists. -/
def cfgC1 : ReduceConfig :=
  { expire_after_ms := none, flush_period_ms := none
    group_by := [[Segment.field "request_id"]]
    merge_strategies := []
    ends_when := some endsWhenTestEnd, starts_when := none }

/-- The five events of the grouping scenario, each with sorted field
keys as stored by the event map. -/
def eventsC1 : List LogEvent :=
  [VMap.ofList [("counter", .integer 1), ("message", .bytes "test message 1"),
                ("request_id", .bytes "1")],
   VMap.ofList [("counter", .integer 2), ("message", .bytes "test message 2"),
                ("request_id", .bytes "2")],
   VMap.ofList [("counter", .integer 3), ("message", .bytes "test message 3"),
                ("request_id", .bytes "1")],
   VMap.ofList [("counter", .integer 4), ("message", .bytes "test message 4"),
                ("request_id", .bytes "1"), ("test_end", .bytes "yep")],
   VMap.ofList [("counter", .integer 5), ("extra_field", .bytes "value1"),
                ("message", .bytes "test message 5"), ("request_id", .bytes "2"),
                ("test_end", .bytes "yep")]]

/-- The output stream of the grouping scenario. -/
def outC1 : List LogEvent := (runReduce (buildReduce cfgC1) eventsC1 0).2

/-- The configuration of the strategies scenario: concat on `foo`, array
on `bar`, max on `baz`. -/
def cfgC2 : ReduceConfig :=
  { expire_after_ms := none, flush_period_ms := none
    group_by := [[Segment.field "request_id"]]
    merge_strategies :=
      [([Segment.field "foo"], MergeStrategy.concat),
       ([Segment.field "bar"], MergeStrategy.array),
       ([Segment.field "baz"], MergeStrategy.max)]
    ends_when := some endsWhenTestEnd, starts_when := none }

/-- The three events of the strategies scenario. -/
def eventsC2 : List LogEvent :=
  [VMap.ofList [("bar", .bytes "first bar"), ("baz", .integer 2),
                ("foo", .bytes "first foo"), ("message", .bytes "test message 1"),
                ("request_id", .bytes "1")],
   VMap.ofList [("bar", .integer 2), ("baz", .bytes "not number"),
                ("foo", .bytes "second foo"), ("message", .bytes "test message 2"),
                ("request_id", .bytes "1")],
   VMap.ofList [("bar", .bytes "third bar"), ("baz", .integer 3),
                ("foo", .integer 10), ("message", .bytes "test message 3"),
                ("request_id", .bytes "1"), ("test_end", .bytes "yep")]]

/-- The output stream of the strategies scenario. -/
def outC2 : List LogEvent := (runReduce (buildReduce cfgC2) eventsC2 0).2

/-- A strategy table whose only entry sits under a two-segment path. -/
def strategiesC10 : List (LookupBuf × MergeStrategy) :=
  [([Segment.field "a", Segment.field "b"], MergeStrategy.concat)]

/-- A bucket seeded from an event whose raw top-level key reads like a
two-segment path. -/
def stC10a : ReduceState :=
  ReduceState.new (VMap.ofList [("a.b", .bytes "x")]) strategiesC10 0

/-- The same bucket after a second event with the same raw key. -/
def stC10b : ReduceState :=
  stC10a.add_event (VMap.ofList [("a.b", .bytes "y")]) strategiesC10 0

example : outC1.map (VMap.lookup "counter") =
    [some (.integer 8), some (.integer 7)] := by decide
example : outC1.map (VMap.lookup "message") =
    [some (.bytes "test message 1"), some (.bytes "test message 2")] := by decide
example : outC1.map (VMap.lookup "extra_field") =
    [none, some (.bytes "value1")] := by decide
example : outC2.map (VMap.lookup "foo") =
    [some (.bytes "first foo second foo")] := by decide
example : outC2.map (VMap.lookup "bar") =
    [some (.array (VList.ofList [.bytes "first bar", .integer 2, .bytes "third bar"]))] := by decide
example : outC2.map (VMap.lookup "baz") = [some (.integer 3)] := by decide
example : alookup [Segment.field "a", Segment.field "b"] stC10a.fields =
    some (.concatStr "x") := by decide
example : alookup (LookupBuf.fromRaw "a.b") stC10b.fields =
    some (.discard (.bytes "y")) := by decide
example : alookup [Segment.field "a", Segment.field "b"] stC10b.fields =
    some (.concatStr "x") := by decide

example : parse "foo[0]" = some [Segment.field "foo", Segment.index 0] := by decide
example : parse "a.b[0][0]" =
    some [Segment.field "a", Segment.field "b", Segment.index 0, Segment.index 0] := by decide
example : parse "" = none := by decide
example : renderLookup [Segment.field "a", Segment.field "b", Segment.index 10] = "a.b[10]" := by decide
example : parse "a[00]" = some [Segment.field "a", Segment.index 0] := by decide

/-- An engine with the default thresholds, grouping by request_id, used
to exercise the boundary transitions on concrete inputs. -/
def rExample (ends starts : Option Cond)
    (states : List (Discriminant × ReduceState)) : Reduce :=
  { expire_after := 30000, flush_period := 1000
    group_by := [[Segment.field "request_id"]]
    merge_strategies := []
    reduce_merge_states := states
    ends_when := ends, starts_when := starts }

/-- A bucket opened from a first event with request_id one. -/
def stExample : ReduceState :=
  ReduceState.new
    (VMap.ofList [("counter", Value.integer 1), ("request_id", Value.bytes "1")]) [] 0

/-- The discriminant of the events with request_id one. -/
def dExample : Discriminant := [some (Value.bytes "1")]

/-- An event with request_id one that satisfies the test_end boundary
condition. -/
def eEnd : LogEvent :=
  VMap.ofList [("counter", Value.integer 2), ("request_id", Value.bytes "1"),
               ("test_end", Value.bytes "yep")]

/-- An event with request_id two and no boundary field. -/
def eNoEnd : LogEvent :=
  VMap.ofList [("counter", Value.integer 7), ("request_id", Value.bytes "2")]

/-- A boundary condition holding on every event. -/
def alwaysCond : Cond := fun _ => true

/-! Association-list lemmas shared by the state-machine proofs. -/

theorem alookup_ainsert {κ α : Type} [DecidableEq κ] (k k2 : κ) (v : α)
    (l : List (κ × α)) :
    alookup k (ainsert k2 v l) = if k = k2 then some v else alookup k l := by
  induction l with
  | nil => simp [ainsert, alookup]
  | cons hd tl ih =>
    obtain ⟨k3, v3⟩ := hd
    by_cases h23 : k2 = k3
    · subst h23
      by_cases hk : k = k2 <;> simp [ainsert, alookup, hk]
    · by_cases hk : k = k3
      · subst hk
        have hne : ¬ k = k2 := fun h => h23 h.symm
        simp [ainsert, alookup, h23, hne]
      · simp [ainsert, alookup, h23, hk, ih]

theorem alookup_none {κ α : Type} [DecidableEq κ] {k : κ} {l : List (κ × α)}
    (h : alookup k l = none) : ∀ p ∈ l, p.1 ≠ k := by
  induction l with
  | nil => simp
  | cons hd tl ih =>
    obtain ⟨k2, v2⟩ := hd
    by_cases hk : k = k2
    · simp [alookup, hk] at h
    · simp only [alookup, if_neg hk] at h
      intro p hp
      rcases List.mem_cons.mp hp with h1 | h2
      · subst h1; simpa using fun he => hk he.symm
      · exact ih h p h2

theorem aerase_of_none {κ α : Type} [DecidableEq κ] {k : κ} {l : List (κ × α)}
    (h : alookup k l = none) : aerase k l = l := by
  induction l with
  | nil => simp [aerase]
  | cons hd tl ih =>
    obtain ⟨k2, v2⟩ := hd
    by_cases hk : k = k2
    · simp [alookup, hk] at h
    · simp only [alookup, if_neg hk] at h
      simp [aerase, hk, ih h]

theorem aerase_sublist {κ α : Type} [DecidableEq κ] (k : κ) (l : List (κ × α)) :
    List.Sublist (aerase k l) l := by
  induction l with
  | nil => simp [aerase]
  | cons hd tl ih =>
    obtain ⟨k2, v2⟩ := hd
    by_cases hk : k = k2
    · simp only [aerase, if_pos hk]
      exact List.sublist_cons_self (k2, v2) tl
    · simpa [aerase, hk] using List.Sublist.cons₂ (k2, v2) ih

theorem mem_aerase {κ α : Type} [DecidableEq κ] {k : κ} {l : List (κ × α)}
    {p : κ × α} (hp : p ∈ aerase k l) : p ∈ l :=
  (aerase_sublist k l).subset hp

theorem mem_aerase_ne {κ α : Type} [DecidableEq κ] {k : κ} {l : List (κ × α)}
    (hnd : (l.map Prod.fst).Nodup) {p : κ × α} (hp : p ∈ aerase k l) : p.1 ≠ k := by
  induction l with
  | nil => simp [aerase] at hp
  | cons hd tl ih =>
    obtain ⟨k2, v2⟩ := hd
    simp only [List.map_cons, List.nodup_cons] at hnd
    by_cases hk : k = k2
    · subst hk
      simp only [aerase, if_pos rfl] at hp
      intro hpk
      exact hnd.1 (hpk ▸ List.mem_map.mpr ⟨p, hp, rfl⟩)
    · simp only [aerase, if_neg hk] at hp
      rcases List.mem_cons.mp hp with h1 | h2
      · subst h1; simpa using fun he => hk he.symm
      · exact ih hnd.2 h2

theorem alookup_not_none_of_mem {κ α : Type} [DecidableEq κ] {l : List (κ × α)}
    {p : κ × α} (hp : p ∈ l) : alookup p.1 l ≠ none := by
  intro h
  exact alookup_none h p hp rfl

theorem alookup_mem {κ α : Type} [DecidableEq κ] {k : κ} {l : List (κ × α)} {v : α}
    (h : alookup k l = some v) : (k, v) ∈ l := by
  induction l with
  | nil => simp [alookup] at h
  | cons hd tl ih =>
    obtain ⟨k2, v2⟩ := hd
    by_cases hk : k = k2
    · subst hk
      have h2 : some v2 = some v := by rw [← h]; simp [alookup]
      injection h2 with h3
      exact h3 ▸ List.mem_cons_self _ _
    · simp only [alookup, if_neg hk] at h
      exact List.mem_cons_of_mem _ (ih h)

theorem alookup_aerase_self {κ α : Type} [DecidableEq κ] {k : κ} {l : List (κ × α)}
    (hnd : (l.map Prod.fst).Nodup) : alookup k (aerase k l) = none := by
  cases h : alookup k (aerase k l) with
  | none => rfl
  | some v =>
    exact absurd rfl (mem_aerase_ne hnd (alookup_mem h))

theorem keys_ainsert {κ α : Type} [DecidableEq κ] (k : κ) (v : α) (l : List (κ × α)) :
    (ainsert k v l).map Prod.fst =
      if k ∈ l.map Prod.fst then l.map Prod.fst else l.map Prod.fst ++ [k] := by
  induction l with
  | nil => simp [ainsert]
  | cons hd tl ih =>
    obtain ⟨k2, v2⟩ := hd
    by_cases hk : k = k2
    · simp [ainsert, hk]
    · simp only [ainsert, if_neg hk, List.map_cons, ih]
      by_cases hmem : k ∈ tl.map Prod.fst
      · simp [hmem, hk, List.mem_cons]
      · simp [hmem, hk, List.mem_cons]

theorem nodup_ainsert {κ α : Type} [DecidableEq κ] {k : κ} {v : α} {l : List (κ × α)}
    (hnd : (l.map Prod.fst).Nodup) : ((ainsert k v l).map Prod.fst).Nodup := by
  rw [keys_ainsert]
  by_cases hmem : k ∈ l.map Prod.fst
  · simpa [hmem] using hnd
  · simp only [if_neg hmem]
    exact List.Nodup.append hnd (List.nodup_singleton k)
      (by simpa [List.disjoint_singleton] using hmem)

theorem nodup_aerase {κ α : Type} [DecidableEq κ] {k : κ} {l : List (κ × α)}
    (hnd : (l.map Prod.fst).Nodup) : ((aerase k l).map Prod.fst).Nodup :=
  hnd.sublist ((aerase_sublist k l).map Prod.fst)

theorem mem_ainsert {κ α : Type} [DecidableEq κ] {k : κ} {v : α} {l : List (κ × α)}
    {p : κ × α} (hp : p ∈ ainsert k v l) : p = (k, v) ∨ p ∈ l := by
  induction l with
  | nil => simpa [ainsert] using hp
  | cons hd tl ih =>
    obtain ⟨k2, v2⟩ := hd
    by_cases hk : k = k2
    · simp only [ainsert, if_pos hk] at hp
      rcases List.mem_cons.mp hp with h1 | h2
      · exact Or.inl h1
      · exact Or.inr (List.mem_cons_of_mem _ h2)
    · simp only [ainsert, if_neg hk] at hp
      rcases List.mem_cons.mp hp with h1 | h2
      · exact Or.inr (h1 ▸ List.mem_cons_self _ _)
      · rcases ih h2 with h3 | h4
        · exact Or.inl h3
        · exact Or.inr (List.mem_cons_of_mem _ h4)

/-! Staleness-sweep lemmas. -/

theorem flush_into_of_fresh (r : Reduce) (now : Nat)
    (h : ∀ p ∈ r.reduce_merge_states, now - p.2.stale_since < r.expire_after) :
    r.flush_into now = (r, []) := by
  unfold Reduce.flush_into
  have hf : r.reduce_merge_states.filter
      (fun p => r.expire_after ≤ now - p.2.stale_since) = [] := by
    refine List.filter_eq_nil_iff.mpr (fun p hp => ?_)
    simpa using Nat.not_le.mpr (h p hp)
  rw [hf]
  rfl

theorem sweep_no_stale (ea now : Nat) :
    ∀ (K : List Discriminant) (m : List (Discriminant × ReduceState))
      (out : List LogEvent),
      (∀ p ∈ m, ea ≤ now - p.2.stale_since → p.1 ∈ K) →
      (m.map Prod.fst).Nodup →
      ∀ p ∈ (K.foldl sweepStep (m, out)).1, now - p.2.stale_since < ea := by
  intro K
  induction K with
  | nil =>
    intro m out hc hnd p hp
    simp only [List.foldl_nil] at hp
    by_contra hge
    exact absurd (hc p hp (Nat.le_of_not_lt hge)) (List.not_mem_nil _)
  | cons k K ih =>
    intro m out hc hnd p hp
    simp only [List.foldl_cons] at hp
    rcases hstep : sweepStep (m, out) k with ⟨m2, out2⟩
    rw [hstep] at hp
    unfold sweepStep at hstep
    cases halk : alookup k m with
    | some t =>
      rw [halk] at hstep
      simp only [Prod.mk.injEq] at hstep
      obtain ⟨hm2, _⟩ := hstep
      subst hm2
      refine ih (aerase k m) out2 ?_ (nodup_aerase hnd) p hp
      intro q hq hstale
      have hq2 := mem_aerase hq
      rcases List.mem_cons.mp (hc q hq2 hstale) with h1 | h2
      · exact absurd h1 (mem_aerase_ne hnd hq)
      · exact h2
    | none =>
      rw [halk] at hstep
      simp only [Prod.mk.injEq] at hstep
      obtain ⟨hm2, _⟩ := hstep
      subst hm2
      refine ih m out2 ?_ hnd p hp
      intro q hq hstale
      rcases List.mem_cons.mp (hc q hq hstale) with h1 | h2
      · exact absurd (h1 ▸ halk) (alookup_not_none_of_mem hq)
      · exact h2

theorem flush_into_no_stale (r : Reduce) (now : Nat)
    (hnd : (r.reduce_merge_states.map Prod.fst).Nodup) :
    ∀ p ∈ (r.flush_into now).1.reduce_merge_states,
      now - p.2.stale_since < r.expire_after := by
  unfold Reduce.flush_into
  intro p hp
  refine sweep_no_stale r.expire_after now _ r.reduce_merge_states [] ?_ hnd p hp
  intro q hq hstale
  exact List.mem_map.mpr
    ⟨q, List.mem_filter.mpr ⟨hq, by simpa using hstale⟩, rfl⟩

/-- C1: with group_by request_id and an ends_when condition on existence
of the field test_end, the five-event scenario produces exactly two
output events: the first with counter 8 and the message of event one, the
second with counter 7, the message of event two, and extra_field value1
present; and for fields with no configured strategy the type-dependent
default merger sums integer values and keeps the first non-numeric
value, discarding later contributions. -/
theorem C1_grouping_scenario :
    (outC1.map (VMap.lookup "counter") =
       [some (.integer 8), some (.integer 7)] ∧
     outC1.map (VMap.lookup "message") =
       [some (.bytes "test message 1"), some (.bytes "test message 2")] ∧
     outC1.map (VMap.lookup "extra_field") =
       [none, some (.bytes "value1")]) ∧
    (∀ a b : Int,
       (Merger.ofValue (.integer a)).add (.integer b) = .ok (.sumNum (a + b)) ∧
       (Merger.sumNum a).finalize = .integer a) ∧
    (∀ (s : String) (w : Value),
       (Merger.ofValue (.bytes s)).add w = .ok (.discard (.bytes s)) ∧
       (Merger.ofValue (.bytes s)).finalize = .bytes s) := by
  refine ⟨⟨by decide, by decide, by decide⟩, ?_, ?_⟩
  · intro a b
    exact ⟨rfl, rfl⟩
  · intro s w
    exact ⟨rfl, rfl⟩

/-- C2: with strategies concat on foo, array on bar and max on baz, the
three-event scenario yields one output with baz 3 (the non-numeric
contribution dropped by max), foo the space-joined concatenation of the
two string contributions (the numeric contribution is a dropped
mismatch), bar the array of all three raw contributions in arrival
order; and processing one field of an event never touches the entry of
any other field key, so a mismatch on one field cannot prevent the other
fields of the same event from being merged. -/
theorem C2_merge_strategies :
    (outC2.map (VMap.lookup "baz") = [some (.integer 3)] ∧
     outC2.map (VMap.lookup "foo") = [some (.bytes "first foo second foo")] ∧
     outC2.map (VMap.lookup "bar") =
       [some (.array (VList.ofList
         [.bytes "first bar", .integer 2, .bytes "third bar"]))]) ∧
    (∀ (strategies : List (LookupBuf × MergeStrategy))
       (acc : List (LookupBuf × Merger)) (k : String) (v : Value)
       (kb : LookupBuf), kb ≠ LookupBuf.fromRaw k →
       alookup kb (addField strategies acc (k, v)) = alookup kb acc) := by
  refine ⟨⟨by decide, by decide, by decide⟩, ?_⟩
  intro strategies acc k v kb hne
  simp only [addField]
  cases halk : alookup (LookupBuf.fromRaw k) acc with
  | none =>
    cases hstrat : alookup (LookupBuf.fromRaw k) strategies with
    | some strat =>
      cases hm : get_value_merger v strat with
      | ok m => simp [halk, hstrat, hm, alookup_ainsert, hne]
      | error e => simp [halk, hstrat, hm]
    | none => simp [halk, hstrat, alookup_ainsert, hne]
  | some m =>
    cases hm : m.add v with
    | ok m2 => simp [halk, hm, alookup_ainsert, hne]
    | error e => simp [halk, hm]

/-- Witness for C2: processing the field bar of an event leaves the entry
of a different key untouched. -/
theorem C2_witness :
    alookup [Segment.field "zz"] (addField [] [] ("bar", Value.integer 2)) =
      alookup ([Segment.field "zz"] : LookupBuf) ([] : List (LookupBuf × Merger)) :=
  C2_merge_strategies.2 [] [] "bar" (Value.integer 2) [Segment.field "zz"] (by decide)

/-- C5: constructing the engine fails exactly when both starts_when and
ends_when are configured; with at most one boundary condition the
construction (with respect to this check) succeeds, before any event is
processed. -/
theorem C5_construction_mutual_exclusion (cfg : ReduceConfig) :
    (Reduce.new cfg).toOption.isSome =
      !(cfg.ends_when.isSome && cfg.starts_when.isSome) := by
  unfold Reduce.new
  cases h : cfg.ends_when.isSome && cfg.starts_when.isSome <;>
    simp [h, Except.toOption]

/-- C6: two events missing every group_by path get structurally equal
discriminants (one shared absent bucket), and that discriminant differs
from the discriminant of any event carrying a value under some group_by
path. -/
theorem C6_absent_discriminant (gb : List LookupBuf) (e1 e2 e3 : LogEvent)
    (h1 : ∀ p ∈ gb, valueGet p (Value.map e1) = none)
    (h2 : ∀ p ∈ gb, valueGet p (Value.map e2) = none) :
    Discriminant.from_log_event e1 gb = Discriminant.from_log_event e2 gb ∧
    ((∃ p ∈ gb, (valueGet p (Value.map e3)).isSome = true) →
      Discriminant.from_log_event e3 gb ≠ Discriminant.from_log_event e1 gb) := by
  constructor
  · unfold Discriminant.from_log_event
    calc gb.map (fun p => valueGet p (Value.map e1))
        = gb.map (fun _ => none) := List.map_congr_left (fun p hp => h1 p hp)
      _ = gb.map (fun p => valueGet p (Value.map e2)) :=
        (List.map_congr_left (fun p hp => h2 p hp)).symm
  · rintro ⟨p, hp, hsome⟩ heq
    unfold Discriminant.from_log_event at heq
    have hpt := List.map_inj_left.mp heq p hp
    rw [h1 p hp] at hpt
    rw [hpt] at hsome
    simp at hsome

/-- Witness for C6: two events without a request_id field share one
discriminant under group_by request_id. -/
theorem C6_witness :
    Discriminant.from_log_event (VMap.ofList [("counter", Value.integer 1)])
        [[Segment.field "request_id"]] =
      Discriminant.from_log_event VMap.nil [[Segment.field "request_id"]] :=
  (C6_absent_discriminant [[Segment.field "request_id"]]
    (VMap.ofList [("counter", Value.integer 1)]) VMap.nil VMap.nil
    (by decide) (by decide)).1

/-- C10: seeding a bucket parses each field key as a path expression, so
a strategy configured under the two-segment path a.b matches the raw
top-level key a.b of the first event; a later event converts the same
raw key to a single opaque segment, the strategy no longer matches, and
the contribution lands in a separate default-merged entry while the
seeded concat merger keeps only the first value. -/
theorem C10_seed_key_parsing :
    (seedKey "a.b" = [Segment.field "a", Segment.field "b"] ∧
     LookupBuf.fromRaw "a.b" = [Segment.field "a.b"]) ∧
    alookup [Segment.field "a", Segment.field "b"] stC10a.fields =
      some (.concatStr "x") ∧
    alookup (LookupBuf.fromRaw "a.b") stC10a.fields = none ∧
    alookup (LookupBuf.fromRaw "a.b") stC10b.fields =
      some (.discard (.bytes "y")) ∧
    alookup [Segment.field "a", Segment.field "b"] stC10b.fields =
      some (.concatStr "x") := by
  refine ⟨⟨by decide, by decide⟩, by decide, by decide, by decide, by decide⟩

/-- C3: on an event matching the configured ends_when condition, the
engine merges the event into the bucket of its discriminant (opening one
from the event alone when absent), immediately flushes it as exactly one
output event, and removes the bucket from the state map (stated for a
state with no stale buckets, so the staleness sweep emits nothing
else). -/
theorem C3_ends_when_flush (r : Reduce) (c : Cond) (e : LogEvent) (now : Nat)
    (hs : r.starts_when = none) (he : r.ends_when = some c) (hc : c e = true)
    (hfresh : ∀ p ∈ r.reduce_merge_states,
      now - p.2.stale_since < r.expire_after) :
    (r.transform_one now e).2 =
      [(match alookup (Discriminant.from_log_event e r.group_by)
          r.reduce_merge_states with
        | some st => st.add_event e r.merge_strategies now
        | none => ReduceState.new e r.merge_strategies now).flush] ∧
    (r.transform_one now e).1.reduce_merge_states =
      aerase (Discriminant.from_log_event e r.group_by) r.reduce_merge_states := by
  simp only [Reduce.transform_one, hs, he, hc, if_true, if_false, Bool.false_eq_true,
    ite_false, ite_true]
  cases halk : alookup (Discriminant.from_log_event e r.group_by)
      r.reduce_merge_states with
  | some st =>
    have hflush := flush_into_of_fresh
      { r with
          reduce_merge_states :=
            (aerase (Discriminant.from_log_event e r.group_by) r.reduce_merge_states)
          ends_when := some c
          starts_when := none }
      now (fun p hp => hfresh p (mem_aerase hp))
    simp only [halk, hflush]
    exact ⟨by simp, by simp⟩
  | none =>
    have hflush := flush_into_of_fresh r now hfresh
    simp only [halk, hflush]
    exact ⟨by simp, by simp [aerase_of_none halk]⟩

/-- Witness for C3: a concrete matching event merges into the open
bucket, the merged bucket is flushed as the single output, and the state
map becomes empty. -/
theorem C3_witness :
    ((rExample (some endsWhenTestEnd) none
        [(dExample, stExample)]).transform_one 0 eEnd).2 =
      [(stExample.add_event eEnd [] 0).flush] ∧
    ((rExample (some endsWhenTestEnd) none
        [(dExample, stExample)]).transform_one 0 eEnd).1.reduce_merge_states = [] := by
  have h := C3_ends_when_flush
    (rExample (some endsWhenTestEnd) none [(dExample, stExample)])
    endsWhenTestEnd eEnd 0 rfl rfl (by decide) (by decide)
  constructor
  · rw [h.1]
    decide
  · rw [h.2]
    decide

/-- C4: on an event matching the configured starts_when condition, an
existing bucket for the discriminant of the event is flushed and emitted
without the triggering event, and a fresh bucket seeded solely from the
triggering event is opened; with no existing bucket nothing is emitted
by the transition, and the fresh bucket is still opened (stated for a
state with unique keys, no stale buckets and a positive staleness
threshold, so the sweep emits nothing else). -/
theorem C4_starts_when_flush (r : Reduce) (c : Cond) (e : LogEvent) (now : Nat)
    (hs : r.starts_when = some c) (hc : c e = true)
    (hnd : (r.reduce_merge_states.map Prod.fst).Nodup)
    (hfresh : ∀ p ∈ r.reduce_merge_states,
      now - p.2.stale_since < r.expire_after)
    (hpos : 0 < r.expire_after) :
    (r.transform_one now e).2 =
      (match alookup (Discriminant.from_log_event e r.group_by)
          r.reduce_merge_states with
       | some st => [st.flush]
       | none => []) ∧
    alookup (Discriminant.from_log_event e r.group_by)
        (r.transform_one now e).1.reduce_merge_states =
      some (ReduceState.new e r.merge_strategies now) := by
  simp only [Reduce.transform_one, hs, hc, if_true]
  cases halk : alookup (Discriminant.from_log_event e r.group_by)
      r.reduce_merge_states with
  | some st =>
    simp only [halk, Reduce.push_or_new_reduce_state,
      alookup_aerase_self hnd]
    have hflush := flush_into_of_fresh
      { r with
          reduce_merge_states :=
            (ainsert (Discriminant.from_log_event e r.group_by)
              (ReduceState.new e r.merge_strategies now)
              (aerase (Discriminant.from_log_event e r.group_by)
                r.reduce_merge_states))
          ends_when := r.ends_when
          starts_when := some c }
      now ?fresh2
    case fresh2 =>
      intro p hp
      rcases mem_ainsert hp with h1 | h2
      · subst h1
        simpa [ReduceState.new] using hpos
      · exact hfresh p (mem_aerase h2)
    simp only [hflush]
    refine ⟨by simp, ?_⟩
    simp [alookup_ainsert]
  | none =>
    simp only [halk, Reduce.push_or_new_reduce_state]
    have hflush := flush_into_of_fresh
      { r with
          reduce_merge_states :=
            (ainsert (Discriminant.from_log_event e r.group_by)
              (ReduceState.new e r.merge_strategies now)
              r.reduce_merge_states) }
      now ?fresh3
    case fresh3 =>
      intro p hp
      rcases mem_ainsert hp with h1 | h2
      · subst h1
        simpa [ReduceState.new] using hpos
      · exact hfresh p h2
    simp only [hflush]
    refine ⟨by simp, ?_⟩
    simp [alookup_ainsert]

/-- Witness for C4: a concrete matching event flushes the existing
bucket unchanged and reseeds the bucket of its discriminant from the
event alone. -/
theorem C4_witness :
    ((rExample none (some alwaysCond)
        [(dExample, stExample)]).transform_one 0 eEnd).2 = [stExample.flush] ∧
    alookup (Discriminant.from_log_event eEnd
        (rExample none (some alwaysCond) [(dExample, stExample)]).group_by)
      ((rExample none (some alwaysCond)
        [(dExample, stExample)]).transform_one 0 eEnd).1.reduce_merge_states =
      some (ReduceState.new eEnd [] 0) := by
  have h := C4_starts_when_flush
    (rExample none (some alwaysCond) [(dExample, stExample)])
    alwaysCond eEnd 0 rfl rfl (by decide) (by decide) (by decide)
  constructor
  · rw [h.1]
    decide
  · rw [h.2]
    rfl

/-- C9: the staleness sweep runs inside every transform_one call, so
directly after processing any incoming event (at the same instant) the
state map holds no bucket whose time since last update reached
expire_after — a stale bucket is flushed on the next event arrival even
without a timer tick (stated for a state map with unique keys). -/
theorem C9_stale_swept_on_event (r : Reduce) (e : LogEvent) (now : Nat)
    (hnd : (r.reduce_merge_states.map Prod.fst).Nodup) :
    ∀ p ∈ (r.transform_one now e).1.reduce_merge_states,
      now - p.2.stale_since < r.expire_after := by
  have main : ∀ (r2 : Reduce), ((r2.reduce_merge_states.map Prod.fst).Nodup) →
      r2.expire_after = r.expire_after →
      ∀ p ∈ (r2.flush_into now).1.reduce_merge_states,
        now - p.2.stale_since < r.expire_after := by
    intro r2 h2 heq p hp
    rw [← heq]
    exact flush_into_no_stale r2 now h2 p hp
  simp only [Reduce.transform_one]
  refine main _ ?_ ?_
  · split
    · split
      · simp only [Reduce.push_or_new_reduce_state]
        split <;> exact nodup_ainsert (nodup_aerase hnd)
      · simp only [Reduce.push_or_new_reduce_state]
        split <;> exact nodup_ainsert hnd
    · split
      · split
        · exact nodup_aerase hnd
        · exact hnd
      · simp only [Reduce.push_or_new_reduce_state]
        split <;> exact nodup_ainsert hnd
  · split
    · split
      · simp only [Reduce.push_or_new_reduce_state]
        split <;> rfl
      · simp only [Reduce.push_or_new_reduce_state]
        split <;> rfl
    · split
      · split <;> rfl
      · simp only [Reduce.push_or_new_reduce_state]
        split <;> rfl

/-- Witness for C9: after a stale bucket is swept by an arriving event,
the surviving bucket of the new event is itself fresh. -/
theorem C9_witness :
    50000 - (ReduceState.new eNoEnd [] 50000).stale_since <
      (rExample none none [(dExample, stExample)]).expire_after :=
  C9_stale_swept_on_event (rExample none none [(dExample, stExample)])
    eNoEnd 50000 (by decide)
    ([some (Value.bytes "2")], ReduceState.new eNoEnd [] 50000) (by decide)

/-! Traversal lemmas. -/

theorem next_scalar : ∀ (fuel : Nat) (st : FieldsIter) (p : String) (v : Value)
    (st2 : FieldsIter), FieldsIter.next fuel st = some ((p, v), st2) →
    v.isScalar = true := by
  intro fuel
  induction fuel with
  | zero =>
    intro st p v st2 h
    simp [FieldsIter.next] at h
  | succ n ih =>
    intro st p v st2 h
    obtain ⟨stack, path⟩ := st
    unfold FieldsIter.next at h
    cases stack with
    | nil => simp at h
    | cons frame stackRest =>
      cases frame with
      | map m =>
        cases m with
        | nil => exact ih _ _ _ _ h
        | cons k v2 m2 =>
          cases v2 <;>
            first
            | exact ih _ _ _ _ h
            | (injection h with h1
               injection h1 with h3 h4
               injection h3 with h5 h6
               rw [← h6]
               rfl)
      | arr i l =>
        cases l with
        | nil => exact ih _ _ _ _ h
        | cons v2 l2 =>
          cases v2 <;>
            first
            | exact ih _ _ _ _ h
            | (injection h with h1
               injection h1 with h3 h4
               injection h3 with h5 h6
               rw [← h6]
               rfl)

theorem toList_scalar : ∀ (n : Nat) (st : FieldsIter) (p : String) (v : Value),
    (p, v) ∈ FieldsIter.toList n st → v.isScalar = true := by
  intro n
  induction n with
  | zero =>
    intro st p v h
    simp [FieldsIter.toList] at h
  | succ n ih =>
    intro st p v h
    unfold FieldsIter.toList at h
    cases hn : FieldsIter.next (n + 1) st with
    | none =>
      rw [hn] at h
      simp at h
    | some pv2 =>
      rw [hn] at h
      obtain ⟨⟨p2, v2⟩, st2⟩ := pv2
      simp only [List.mem_cons] at h
      rcases h with h1 | h2
      · have hs := next_scalar (n + 1) st p2 v2 st2 hn
        have hv : v = v2 := congrArg Prod.snd h1
        rw [hv]
        exact hs
      · exact ih st2 p v h2

/-- C7: the flattening traversal yields only scalar leaves, and on the
nested behavior-contract tree it yields exactly, in order, the six
leaves with map children in key-sort order, sequence children in index
order, fields joined with the separator and indices bracketed directly
after the preceding component. -/
theorem C7_flattening_traversal :
    (∀ (n : Nat) (st : FieldsIter) (p : String) (v : Value),
       (p, v) ∈ FieldsIter.toList n st → v.isScalar = true) ∧
    all_fields 100 exampleTree =
      [("a.a", .integer 4), ("a.array[0]", .null), ("a.array[1]", .integer 3),
       ("a.array[2].x", .integer 1), ("a.array[3][0]", .integer 2),
       ("a.b.c", .integer 5)] :=
  ⟨fun n st p v h => toList_scalar n st p v h, by decide⟩

/-- Witness for C7: the first yielded leaf of the contract tree is a
scalar. -/
theorem C7_witness : (Value.integer 4).isScalar = true :=
  C7_flattening_traversal.1 100
    { stack := [LeafIter.map exampleTree], path := [] } "a.a" (.integer 4)
    (by decide)

/-! Decimal digit lemmas for the path round trip. -/

theorem natDigitsF_stable : ∀ (f n : Nat), n < f → natDigitsF f n = natDigits n := by
  intro f
  induction f using Nat.strong_induction_on with
  | _ f ih =>
    intro n hn
    cases f with
    | zero => exact absurd hn (Nat.not_lt_zero n)
    | succ f2 =>
      by_cases h10 : n < 10
      · simp [natDigitsF, natDigits, h10]
      · have hpos : 10 ≤ n := Nat.le_of_not_lt h10
        have hdiv : n / 10 < n := Nat.div_lt_self (by omega) (by omega)
        have h1 : natDigitsF (f2 + 1) n =
            natDigitsF f2 (n / 10) ++ [digitChar (n % 10)] := by
          simp [natDigitsF, h10]
        have h2 : natDigits n = natDigitsF n (n / 10) ++ [digitChar (n % 10)] := by
          simp [natDigits, natDigitsF, h10]
        have e1 : natDigitsF f2 (n / 10) = natDigits (n / 10) :=
          ih f2 (by omega) (n / 10) (by omega)
        have e2 : natDigitsF n (n / 10) = natDigits (n / 10) :=
          ih n hn (n / 10) hdiv
        rw [h1, h2, e1, e2]

theorem char_digit_bounds {c : Char} (h : c.isDigit = true) :
    48 ≤ c.toNat ∧ c.toNat ≤ 57 := by
  unfold Char.isDigit at h
  rw [Bool.and_eq_true] at h
  obtain ⟨h1, h2⟩ := h
  rw [decide_eq_true_eq] at h1 h2
  exact ⟨h1, h2⟩

theorem digitVal_lt_ten {c : Char} (h : c.isDigit = true) : digitVal c < 10 := by
  obtain ⟨h1, h2⟩ := char_digit_bounds h
  unfold digitVal
  omega

theorem digitChar_digitVal {c : Char} (h : c.isDigit = true) :
    digitChar (digitVal c) = c := by
  obtain ⟨h1, h2⟩ := char_digit_bounds h
  unfold digitChar digitVal
  have : 48 + (c.toNat - 48) = c.toNat := by omega
  rw [this]
  exact Char.ofNat_toNat c

theorem digitVal_pos {c : Char} (h : c.isDigit = true) (hz : c ≠ '0') :
    1 ≤ digitVal c := by
  obtain ⟨h1, h2⟩ := char_digit_bounds h
  unfold digitVal
  by_contra hlt
  have h48 : c.toNat = 48 := by omega
  exact hz (by rw [← Char.ofNat_toNat c, h48])

theorem foldl_digits_ge : ∀ (ds : List Char) (a : Nat),
    a ≤ ds.foldl (fun x c => 10 * x + digitVal c) a := by
  intro ds
  induction ds with
  | nil => intro a; simp
  | cons d ds ih =>
    intro a
    calc a ≤ 10 * a + digitVal d := by omega
      _ ≤ (d :: ds).foldl (fun x c => 10 * x + digitVal c) a :=
        ih (10 * a + digitVal d)

theorem digitsVal_pos {c0 : Char} {rest : List Char} (h : c0.isDigit = true)
    (hz : c0 ≠ '0') : 1 ≤ digitsVal (c0 :: rest) := by
  unfold digitsVal
  have h1 := digitVal_pos h hz
  calc 1 ≤ digitVal c0 := h1
    _ ≤ rest.foldl (fun x c => 10 * x + digitVal c) (digitVal c0) := foldl_digits_ge rest _
    _ = (c0 :: rest).foldl (fun x c => 10 * x + digitVal c) 0 := by
        simp [List.foldl_cons]

theorem digits_roundtrip : ∀ (ds : List Char), ds ≠ [] →
    (∀ c ∈ ds, c.isDigit = true) →
    (ds.head? = some '0' → ds.length = 1) →
    natDigits (digitsVal ds) = ds := by
  intro ds
  induction ds using List.reverseRecOn with
  | nil =>
    intro hne
    exact absurd rfl hne
  | append_singleton init d ih =>
    intro hne hdig hlz
    have hd : d.isDigit = true := hdig d (by simp)
    cases init with
    | nil =>
      have hv : digitsVal [d] = digitVal d := by simp [digitsVal]
      simp only [List.nil_append, hv]
      have hlt := digitVal_lt_ten hd
      simp [natDigits, natDigitsF, hlt, digitChar_digitVal hd]
    | cons c0 init2 =>
      have hc0 : c0.isDigit = true := hdig c0 (by simp)
      have hz : c0 ≠ '0' := by
        intro hc
        have := hlz (by simp [hc])
        simp at this
      have hV : 1 ≤ digitsVal (c0 :: init2) := digitsVal_pos hc0 hz
      have hsplit : digitsVal ((c0 :: init2) ++ [d]) =
          10 * digitsVal (c0 :: init2) + digitVal d := by
        unfold digitsVal
        rw [List.foldl_append]
        simp [List.foldl_cons]
      have hdvd := digitVal_lt_ten hd
      have hge : 10 ≤ 10 * digitsVal (c0 :: init2) + digitVal d := by omega
      have hdiv : (10 * digitsVal (c0 :: init2) + digitVal d) / 10 =
          digitsVal (c0 :: init2) := by omega
      have hmod : (10 * digitsVal (c0 :: init2) + digitVal d) % 10 = digitVal d := by
        omega
      rw [hsplit]
      have hunf : natDigits (10 * digitsVal (c0 :: init2) + digitVal d) =
          natDigitsF (10 * digitsVal (c0 :: init2) + digitVal d)
            ((10 * digitsVal (c0 :: init2) + digitVal d) / 10) ++
          [digitChar ((10 * digitsVal (c0 :: init2) + digitVal d) % 10)] := by
        simp [natDigits, natDigitsF, Nat.not_lt.mpr hge]
      rw [hunf, hdiv, hmod,
        natDigitsF_stable _ (digitsVal (c0 :: init2)) (by omega),
        digitChar_digitVal hd,
        ih (by simp)
          (fun c hc => hdig c (by rcases List.mem_cons.mp hc with h | h <;> simp [h]))
          (fun hh => by
            simp only [List.head?_cons, Option.some.injEq] at hh
            exact absurd hh hz)]

/-! Leading-zero window lemmas. -/

theorem noLZ_tail : ∀ (c : Char) (cs : List Char),
    noLZ (c :: cs) = true → noLZ cs = true := by
  intro c cs h
  match cs with
  | [] => rfl
  | [c2] => rfl
  | c2 :: c3 :: rest =>
    unfold noLZ at h
    rw [Bool.and_eq_true] at h
    exact h.2

theorem noLZ_suffix : ∀ (pre post : List Char),
    noLZ (pre ++ post) = true → noLZ post = true := by
  intro pre
  induction pre with
  | nil => intro post h; exact h
  | cons c pre ih =>
    intro post h
    exact ih post (noLZ_tail c (pre ++ post) h)

theorem parseIndices_sound : ∀ (fuel : Nat) (cs : List Char) (is : List Nat)
    (rest : List Char), parseIndices fuel cs = some (is, rest) →
    noLZ cs = true → cs = renderIdxs is ++ rest := by
  intro fuel
  induction fuel with
  | zero =>
    intro cs is rest h _
    simp [parseIndices] at h
  | succ n ih =>
    intro cs is rest h hlz
    cases cs with
    | nil =>
      simp only [parseIndices, Option.some.injEq, Prod.mk.injEq] at h
      obtain ⟨h2, h3⟩ := h
      subst h2
      subst h3
      rfl
    | cons c r =>
      simp only [parseIndices] at h
      by_cases hc : c = '['
      · subst hc
        rw [if_pos rfl] at h
        by_cases hds : (r.takeWhile Char.isDigit).isEmpty
        · rw [if_pos hds] at h
          exact absurd h (by simp)
        · rw [if_neg hds] at h
          cases hdr : r.dropWhile Char.isDigit with
          | nil =>
            rw [hdr] at h
            exact absurd h (by simp)
          | cons c2 rest2 =>
            rw [hdr] at h
            simp only [] at h
            by_cases hc2 : c2 = ']'
            · subst hc2
              rw [if_pos rfl] at h
              cases hrec : parseIndices n rest2 with
              | none =>
                rw [hrec] at h
                exact absurd h (by simp)
              | some pr =>
                obtain ⟨is2, rest3⟩ := pr
                rw [hrec] at h
                simp only [Option.some.injEq, Prod.mk.injEq] at h
                obtain ⟨h2, h3⟩ := h
                subst h2
                subst h3
                have hdecomp : r = r.takeWhile Char.isDigit ++ (']' :: rest2) := by
                  conv_lhs => rw [← List.takeWhile_append_dropWhile Char.isDigit r]
                  rw [hdr]
                have hdigits : ∀ ch ∈ r.takeWhile Char.isDigit, ch.isDigit = true :=
                  fun ch hch => List.mem_takeWhile_imp hch
                have hnonempty : r.takeWhile Char.isDigit ≠ [] := by
                  intro hempty
                  rw [hempty] at hds
                  exact hds rfl
                have hnolead : (r.takeWhile Char.isDigit).head? = some '0' →
                    (r.takeWhile Char.isDigit).length = 1 := by
                  intro hh
                  cases hds2 : r.takeWhile Char.isDigit with
                  | nil => exact absurd hds2 hnonempty
                  | cons d0 ds2 =>
                    cases ds2 with
                    | nil => rfl
                    | cons d1 ds3 =>
                      exfalso
                      rw [hds2] at hh hdecomp
                      simp only [List.head?_cons, Option.some.injEq] at hh
                      have hd1 : d1.isDigit = true := by
                        refine hdigits d1 ?_
                        rw [hds2]
                        simp
                      rw [hdecomp] at hlz
                      simp only [List.cons_append] at hlz
                      unfold noLZ at hlz
                      rw [Bool.and_eq_true] at hlz
                      have hwin := hlz.1
                      simp [hh, hd1] at hwin
                have hds_round : natDigits (digitsVal (r.takeWhile Char.isDigit)) =
                    r.takeWhile Char.isDigit :=
                  digits_roundtrip _ hnonempty hdigits hnolead
                have hlz_r2 : noLZ rest2 = true := by
                  refine noLZ_suffix ('[' :: (r.takeWhile Char.isDigit ++ [']'])) rest2 ?_
                  have heq2 : '[' :: (r.takeWhile Char.isDigit ++ [']']) ++ rest2 =
                      '[' :: r := by
                    conv_rhs => rw [hdecomp]
                    simp
                  rw [heq2]
                  exact hlz
                have hr2 := ih rest2 is2 rest3 hrec hlz_r2
                conv_lhs => rw [hdecomp]
                rw [hr2]
                simp [renderIdxs, hds_round, List.append_assoc, List.cons_append]
            · rw [if_neg hc2] at h
              exact absurd h (by simp)
      · rw [if_neg hc] at h
        simp only [Option.some.injEq, Prod.mk.injEq] at h
        obtain ⟨h2, h3⟩ := h
        subst h2
        subst h3
        rfl

theorem parseField_sound : ∀ (cs f rest : List Char),
    parseField cs = some (f, rest) → ('"' ∉ cs) →
    cs = f ++ rest ∧ f ≠ [] := by
  intro cs f rest h hq
  cases cs with
  | nil => simp [parseField] at h
  | cons c r =>
    simp only [parseField] at h
    by_cases hc : c = '"'
    · exact absurd (hc ▸ List.mem_cons_self c r) hq
    · rw [if_neg hc] at h
      by_cases hbare : ((c :: r).takeWhile isBareChar).isEmpty
      · rw [if_pos hbare] at h
        exact absurd h (by simp)
      · rw [if_neg hbare] at h
        simp only [Option.some.injEq, Prod.mk.injEq] at h
        obtain ⟨h1, h2⟩ := h
        subst h1
        subst h2
        refine ⟨(List.takeWhile_append_dropWhile isBareChar (c :: r)).symm, ?_⟩
        intro hemp
        rw [hemp] at hbare
        exact hbare rfl

theorem renderTail_map_index_append : ∀ (is : List Nat) (tail : List Segment),
    renderTail (is.map Segment.index ++ tail) = renderIdxs is ++ renderTail tail := by
  intro is
  induction is with
  | nil =>
    intro tail
    simp [renderIdxs]
  | cons i is ih =>
    intro tail
    simp [renderTail, renderIdxs, ih, List.append_assoc]

theorem renderTail_field_head (f2 : String) (r2 : List Segment) :
    renderTail (Segment.field f2 :: r2) =
      '.' :: renderSegs (Segment.field f2 :: r2) := rfl

theorem parsePath_render : ∀ (fuel : Nat) (cs : List Char) (segs : List Segment),
    parsePath fuel cs = some segs → ('"' ∉ cs) → noLZ cs = true →
    renderSegs segs = cs ∧ ∃ f2 r2, segs = Segment.field f2 :: r2 := by
  intro fuel
  induction fuel with
  | zero =>
    intro cs segs h _ _
    simp [parsePath] at h
  | succ n ih =>
    intro cs segs h hq hlz
    simp only [parsePath] at h
    cases hpf : parseField cs with
    | none =>
      rw [hpf] at h
      exact absurd h (by simp)
    | some pr =>
      obtain ⟨f, rest⟩ := pr
      rw [hpf] at h
      simp only [] at h
      obtain ⟨hcs, hfne⟩ := parseField_sound cs f rest hpf hq
      cases hpi : parseIndices (rest.length + 1) rest with
      | none =>
        rw [hpi] at h
        exact absurd h (by simp)
      | some pr2 =>
        obtain ⟨is, rest2⟩ := pr2
        rw [hpi] at h
        simp only [] at h
        have hlzrest : noLZ rest = true := by
          rw [hcs] at hlz
          exact noLZ_suffix f rest hlz
        have hrest := parseIndices_sound (rest.length + 1) rest is rest2 hpi hlzrest
        cases rest2 with
        | nil =>
          simp only [Option.some.injEq] at h
          subst h
          refine ⟨?_, String.mk f, is.map Segment.index, rfl⟩
          have htail : renderTail (is.map Segment.index) = renderIdxs is := by
            have h0 := renderTail_map_index_append is []
            simpa [renderTail] using h0
          have hstep1 : renderSegs (Segment.field (String.mk f) :: is.map Segment.index) =
              f ++ renderTail (is.map Segment.index) := rfl
          rw [hstep1, htail, hcs, hrest]
          simp
        | cons c rest3 =>
          simp only [] at h
          by_cases hc : c = '.'
          · subst hc
            rw [if_pos rfl] at h
            cases hrec : parsePath n rest3 with
            | none =>
              rw [hrec] at h
              exact absurd h (by simp)
            | some segs2 =>
              rw [hrec] at h
              simp only [Option.some.injEq] at h
              subst h
              have hq3 : ('"' : Char) ∉ rest3 := by
                intro hm
                refine hq ?_
                rw [hcs, hrest]
                simp [hm]
              have hlz3 : noLZ rest3 = true := by
                refine noLZ_suffix ((f ++ renderIdxs is) ++ ['.']) rest3 ?_
                have heq3 : ((f ++ renderIdxs is) ++ ['.']) ++ rest3 =
                    f ++ (renderIdxs is ++ ('.' :: rest3)) := by simp
                rw [heq3, ← hrest, ← hcs]
                exact hlz
              obtain ⟨hr2, f2, r2, hshape⟩ := ih rest3 segs2 hrec hq3 hlz3
              refine ⟨?_, String.mk f, is.map Segment.index ++ segs2, rfl⟩
              have htail2 : renderTail segs2 = '.' :: rest3 := by
                rw [hshape, renderTail_field_head, ← hshape, hr2]
              have hstep1 :
                  renderSegs (Segment.field (String.mk f) ::
                    (is.map Segment.index ++ segs2)) =
                  f ++ renderTail (is.map Segment.index ++ segs2) := rfl
              rw [List.cons_append, hstep1, renderTail_map_index_append, htail2,
                hcs, hrest]
          · rw [if_neg hc] at h
            exact absurd h (by simp)

/-- C8 as stated fails: the accepted, quote-free string a[00] parses to
the segments a and index zero, which render canonically as a[0], not
a[00] — rendering is not the inverse of parsing on all accepted
unquoted strings. -/
theorem C8_counterexample :
    parse "a[00]" = some [Segment.field "a", Segment.index 0] ∧
    ('"' ∉ "a[00]".data) ∧
    renderLookup [Segment.field "a", Segment.index 0] = "a[0]" ∧
    "a[0]" ≠ "a[00]" :=
  ⟨by decide, by decide, by decide, by decide⟩

/-- C8 amended: for every string the parser accepts that contains no
quoted field component and no index component written with a redundant
leading zero, rendering the parsed path returns the string exactly. -/
theorem C8_roundtrip_amended (s : String) (p : List Segment)
    (hp : parse s = some p) (hq : '"' ∉ s.data) (hlz : noLZ s.data = true) :
    renderLookup p = s := by
  have h := parsePath_render (s.data.length + 1) s.data p hp hq hlz
  unfold renderLookup
  rw [h.1]

/-- Witness for C8: a concrete accepted path string with fields and
indices round trips through parse and render. -/
theorem C8_witness :
    renderLookup [Segment.field "a", Segment.field "b", Segment.index 0,
      Segment.index 10, Segment.field "c"] = "a.b[0][10].c" :=
  C8_roundtrip_amended "a.b[0][10].c"
    [Segment.field "a", Segment.field "b", Segment.index 0,
      Segment.index 10, Segment.field "c"]
    (by decide) (by decide) (by decide)
